import Mathlib

/-
  Shallow embedding of `src/databricks/labs/ucx/workspace_access/groups.py`:
  group-migration matching strategies and the rename / reflect / delete
  phase orchestration of `GroupManager`.

  Remote groups are modelled by their SCIM attributes used in the source;
  member / role / entitlement payloads are carried as opaque serialized
  blobs (an `Option String`), exactly as the orchestrator treats them.
  Python's `re` engine is external to the embedding: the outcome of
  `re.search` / `re.sub` on a given name is an explicit parameter
  (`MatchOutcome` / `SubOutcome`), and the `_safe_match` / `_safe_sub`
  branching from the source is embedded over those outcomes.
-/

namespace Ucx

/-- A remote SCIM group (`iam.Group`) restricted to the attributes the
source projects: id, displayName, externalId and the opaque blobs. -/
structure Group where
  id : String
  display_name : String
  external_id : Option String
  members : Option String
  roles : Option String
  entitlements : Option String
  deriving DecidableEq

/-- The `MigratedGroup` dataclass: one workspace-to-account correspondence,
fields in source order. -/
structure MigratedGroup where
  id_in_workspace : String
  name_in_workspace : String
  name_in_account : String
  temporary_name : String
  members : Option String
  entitlements : Option String
  external_id : Option String
  roles : Option String
  deriving DecidableEq

/-- A name-keyed group dict (`dict[str, Group]`), as an association list in
insertion order; real dicts have unique keys. -/
abbrev GroupDict := List (String × Group)

/-- Python `dict.get`: the value stored under a key, if present. -/
def dictGet : GroupDict → String → Option Group
  | [], _ => none
  | p :: rest, k => if p.1 = k then some p.2 else dictGet rest k

/-- Keys of a group dict. -/
def dictKeys (d : GroupDict) : List String := d.map Prod.fst

/-- Python truthiness of an optional list (`not self.include_group_names`):
`None` and the empty list are both falsy. -/
def optListTruthy : Option (List String) → Bool
  | none => false
  | some xs => !xs.isEmpty

/-- The `GroupMigrationStrategy.get_filtered_groups`: if the include list is
falsy (absent or empty) every workspace group is kept, otherwise only the
entries whose key is in the include list. -/
def get_filtered_groups (ws : GroupDict) (includeNames : Option (List String)) : GroupDict :=
  if optListTruthy includeNames = false then ws
  else ws.filter (fun p => (includeNames.getD []).contains p.1)

/-- Outcome of `re.search(match_re, group_name)`: the pattern failed to
compile, matched nothing, or matched `whole` with the listed capture
groups (a capture group that did not participate is `none`). -/
inductive MatchOutcome where
  | invalid : MatchOutcome
  | noMatch : MatchOutcome
  | matched : String → List (Option String) → MatchOutcome
  deriving DecidableEq

/-- Outcome of `re.sub(match_re, replace, group_name)`: the expression
failed to compile, or substitution produced `subbed r`. -/
inductive SubOutcome where
  | invalid : SubOutcome
  | subbed : String → SubOutcome
  deriving DecidableEq

/-- The `GroupMigrationStrategy._safe_match` over the engine outcome: first
capture group if any capture groups exist, else the whole match, else the
original name on a failed or invalid match. (Python returns `str | None`;
a non-participating first capture group yields `None`.) -/
def safeMatch (group_name : String) : MatchOutcome → Option String
  | MatchOutcome.invalid => some group_name
  | MatchOutcome.noMatch => some group_name
  | MatchOutcome.matched whole groups =>
    match groups with
    | [] => some whole
    | c :: _ => c

/-- The `GroupMigrationStrategy._safe_sub` over the engine outcome: the
substitution result, or the original name unchanged (after a logged
warning) when the expression is invalid. -/
def safeSub (group_name : String) : SubOutcome → String
  | SubOutcome.invalid => group_name
  | SubOutcome.subbed r => r

/-- The key `RegexMatchStrategy.generate_migrated_groups` derives for a
name: `_safe_match` applied to the engine's outcome on that name. -/
def regexMatchKeyOf (engine : String → MatchOutcome) (n : String) : Option String :=
  safeMatch n (engine n)

/-- Correspondence record built by `MatchingNamesStrategy` for workspace
group `g` matched with account group `ag`. -/
def mkMatchingNames (pfx : String) (g ag : Group) : MigratedGroup :=
  ⟨g.id, g.display_name, g.display_name, pfx ++ g.display_name,
   g.members, g.entitlements, ag.external_id, g.roles⟩

/-- The `MatchingNamesStrategy.generate_migrated_groups` over the values of the
(already filtered) workspace dict: look the display name up among account
groups; on a miss skip with a log line, otherwise yield the
correspondence. -/
def matchingNamesGenerate (pfx : String) (acct : GroupDict) : List Group → List MigratedGroup
  | [] => []
  | g :: rest =>
    match dictGet acct g.display_name with
    | none => matchingNamesGenerate pfx acct rest
    | some ag => mkMatchingNames pfx g ag :: matchingNamesGenerate pfx acct rest

/-- Values of a group dict, in iteration order. -/
def dictValues (d : GroupDict) : List Group := d.map Prod.snd

/-- Correspondence record built by `RegexSubStrategy` for workspace group
`g` with derived account name `target` matched with account group `ag`. -/
def mkRegexSub (pfx : String) (g : Group) (target : String) (ag : Group) : MigratedGroup :=
  ⟨g.id, g.display_name, target, pfx ++ g.display_name,
   g.members, g.entitlements, ag.external_id, g.roles⟩

/-- The `RegexSubStrategy.generate_migrated_groups` over the filtered workspace
values, with `sub` the total `_safe_sub` of the configured pattern and
replacement: derive the account name, index the account dict directly
(`self.account_groups_in_account[name_in_account]`); a missing key raises
`KeyError`, which aborts the generator. The result is the list of
correspondences yielded before the failure, paired with the failing
derived name when a failure occurred. -/
def regexSubGenerate (pfx : String) (sub : String → String) (acct : GroupDict) :
    List Group → List MigratedGroup × Option String
  | [] => ([], none)
  | g :: rest =>
    match dictGet acct (sub g.display_name) with
    | none => ([], some (sub g.display_name))
    | some ag =>
      let r := regexSubGenerate pfx sub acct rest
      (mkRegexSub pfx g (sub g.display_name) ag :: r.1, r.2)

/-- Display names of a workspace listing: the keys of the name-keyed dict
`_workspace_groups_in_workspace` builds (`groups[g.display_name] = g`). -/
def wsNames (gs : List Group) : List String := gs.map (fun g => g.display_name)

/-- The `GroupManager.rename_groups` scheduling: walk the migration-state
correspondences; skip one whose `name_in_account` is already an account
group in the workspace, skip one whose `temporary_name` is already a
workspace group; otherwise schedule a patch of `id_in_workspace`'s display
name to `temporary_name`. The tasks are (group id, new display name). -/
def renameTasks (acct ws : List String) : List MigratedGroup → List (String × String)
  | [] => []
  | mg :: rest =>
    if mg.name_in_account ∈ acct then renameTasks acct ws rest
    else if mg.temporary_name ∈ ws then renameTasks acct ws rest
    else (mg.id_in_workspace, mg.temporary_name) :: renameTasks acct ws rest

/-- Remote effect of one `_rename_group` patch: the group with the given
id gets the new display name; every other group is untouched. -/
def applyPatch (gs : List Group) (gid newName : String) : List Group :=
  gs.map (fun g => if g.id = gid then ⟨g.id, newName, g.external_id, g.members, g.roles, g.entitlements⟩ else g)

/-- Remote effect of a batch of rename patches, applied in order. -/
def applyRenames (gs : List Group) : List (String × String) → List Group
  | [] => gs
  | t :: ts => applyRenames (applyPatch gs t.1 t.2) ts

/-- The `GroupManager.delete_original_workspace_groups` scheduling: walk the
persisted snapshot; skip a correspondence whose `temporary_name` is no
longer a workspace group, skip one whose `name_in_account` is not yet an
account group visible in the workspace; otherwise schedule deletion of the
temporary workspace group by id. The tasks are (group id, display name). -/
def deleteTasks (ws acct : List String) : List MigratedGroup → List (String × String)
  | [] => []
  | mg :: rest =>
    if mg.temporary_name ∉ ws then deleteTasks ws acct rest
    else if mg.name_in_account ∉ acct then deleteTasks ws acct rest
    else (mg.id_in_workspace, mg.temporary_name) :: deleteTasks ws acct rest

/-- Error kinds of the remote client relevant to the orchestration
(`databricks.sdk.errors.mapping`). -/
inductive ErrKind where
  | notFound : ErrKind
  | badRequest : ErrKind
  | internalError : ErrKind
  | resourceConflict : ErrKind
  | deadlineExceeded : ErrKind
  | otherError : ErrKind
  deriving DecidableEq

/-- Modelled from the spec: `Threads.gather` of `framework.parallel` (not
under `src/`) runs every job of a labeled batch to completion, never
cancelling siblings, and returns (successes, failures), each failure
keeping its originating group id and cause (§4.3). A job is modelled by
its group id paired with its outcome. -/
def gatherFailures (jobs : List (String × Except String Unit)) : List (String × String) :=
  jobs.filterMap (fun j =>
    match j.2 with
    | Except.ok _ => none
    | Except.error e => some (j.1, e))

/-- A phase's tail (`rename_groups` lines 344-346, `reflect` 367-369,
`delete` 386-389): gather the batch, and raise a single `ManyError`
bundling the failure list exactly when it is non-empty. The raised
aggregate is modelled as the `Except.error` payload. -/
def runPhase (jobs : List (String × Except String Unit)) : Except (List (String × String)) Unit :=
  let errors := gatherFailures jobs
  if errors.length > 0 then Except.error errors else Except.ok ()

/-- One decorator on a remote call: `rate_limited` of `mixins.hardening`
with its cap (and window seconds when given), or the SDK `retried` with
its allow-listed error kinds. -/
inductive RemoteCallPolicy where
  | rateLimited : Nat → Option Nat → RemoteCallPolicy
  | retriedOn : List ErrKind → RemoteCallPolicy
  deriving DecidableEq

/-- Decorator stack of `GroupManager._rename_group` (lines 348-351), inner
decorator first: the source applies none. -/
def renameGroupPolicies : List RemoteCallPolicy := []

/-- Decorator stack of `GroupManager._delete_workspace_group`, inner
decorator first: `@rate_limited(max_requests=35, burst_period_seconds=60)`
under `@retried(on=[InternalError, ResourceConflict, DeadlineExceeded])`. -/
def deleteWorkspaceGroupPolicies : List RemoteCallPolicy :=
  [RemoteCallPolicy.rateLimited 35 (some 60),
   RemoteCallPolicy.retriedOn [ErrKind.internalError, ErrKind.resourceConflict, ErrKind.deadlineExceeded]]

/-- Decorator stack of `GroupManager._reflect_account_group_to_workspace`,
inner decorator first: `@rate_limited(max_requests=10)` under
`@retried(on=[InternalError, ResourceConflict, DeadlineExceeded])`. -/
def reflectAccountGroupPolicies : List RemoteCallPolicy :=
  [RemoteCallPolicy.rateLimited 10 none,
   RemoteCallPolicy.retriedOn [ErrKind.internalError, ErrKind.resourceConflict, ErrKind.deadlineExceeded]]

/-- The mutating remote calls each phase submits to the executor, with
their decorator stacks. -/
def phaseRemoteCalls : List (String × List RemoteCallPolicy) :=
  [("rename_group", renameGroupPolicies),
   ("reflect_account_group_to_workspace", reflectAccountGroupPolicies),
   ("delete_workspace_group", deleteWorkspaceGroupPolicies)]

/-- The transient error kinds of the spec's retry allow-list:
deadline-exceeded, internal error, conflict. -/
def transientKinds : List ErrKind :=
  [ErrKind.internalError, ErrKind.resourceConflict, ErrKind.deadlineExceeded]

/-- A decorator stack consisting of a rate limit composed before (inside)
a retry policy whose allow-list is exactly the transient kinds. -/
def rateLimitThenRetryTransient (pols : List RemoteCallPolicy) : Prop :=
  ∃ m b ks, pols = [RemoteCallPolicy.rateLimited m b, RemoteCallPolicy.retriedOn ks] ∧
    ∀ k, k ∈ ks ↔ k ∈ transientKinds

/-- The `GroupManager._delete_workspace_group` body over the remote delete's
outcome: success and `NotFound` both return `None`; any other error
escapes the try block. -/
def delete_workspace_group (remote : Except ErrKind Unit) : Except ErrKind Unit :=
  match remote with
  | Except.ok _ => Except.ok ()
  | Except.error ErrKind.notFound => Except.ok ()
  | Except.error e => Except.error e

/-- The `GroupManager._rename_group` body over the remote patch's outcome: no
exception handling at all; success returns `True`. -/
def rename_group (remote : Except ErrKind Unit) : Except ErrKind Bool :=
  match remote with
  | Except.ok _ => Except.ok true
  | Except.error e => Except.error e

/-- The `GroupManager._reflect_account_group_to_workspace` body over the
remote permission-assignment outcome: `BadRequest` (already exists) is
converted to `True`; every other error escapes the try block. -/
def reflect_account_group_to_workspace (remote : Except ErrKind Unit) : Except ErrKind Bool :=
  match remote with
  | Except.ok _ => Except.ok true
  | Except.error ErrKind.badRequest => Except.ok true
  | Except.error e => Except.error e

/-- Modelled from the spec: the SDK `retried` wrapper (§4.4, not under
`src/`) replays the call while the budget lasts. The attempts' outcomes
are given as the first outcome plus the remaining budgeted outcomes: a
success returns at once, an allow-listed error is retried until the budget
is exhausted and then surfaced as the last error, and any other error is
surfaced immediately. -/
def retriedCall (allow : List ErrKind) (first : Except ErrKind α) :
    List (Except ErrKind α) → Except ErrKind α :=
  fun rest =>
    match first with
    | Except.ok a => Except.ok a
    | Except.error e =>
      match rest with
      | [] => Except.error e
      | r :: rs => if e ∈ allow then retriedCall allow r rs else Except.error e

/-- A successful first attempt returns at once: no retry consults the
remaining budget. -/
theorem retriedCall_ok (allow : List ErrKind) (a : α) (rest : List (Except ErrKind α)) :
    retriedCall allow (Except.ok a) rest = Except.ok a := by
  cases rest <;> rfl

/- Shared concrete fixtures. -/

/-- Workspace group `data-eng`. -/
def wsDataEng : Group := ⟨"g1", "data-eng", none, none, none, none⟩

/-- Account group `data-eng`. -/
def acctDataEng : Group := ⟨"a1", "data-eng", none, none, none, none⟩

/-- A persisted correspondence for group `x` with temporary name `tmp-x`. -/
def mgSample : MigratedGroup := ⟨"g1", "x", "x-acct", "tmp-x", none, none, none, none⟩

/- Helper lemmas. -/

/-- A successful dict lookup's key is among the dict's keys. -/
theorem dictGet_isSome_mem_keys (d : GroupDict) (k : String) (hk : (dictGet d k).isSome = true) :
    k ∈ dictKeys d := by
  induction d with
  | nil => simp [dictGet] at hk
  | cons p rest ih =>
    by_cases h : p.1 = k
    · simp [dictKeys, h.symm]
    · rw [dictGet, if_neg h] at hk
      simp [dictKeys] at ih ⊢
      exact Or.inr (ih hk)

/-- Every filtered entry is an entry of the original workspace dict. -/
theorem get_filtered_groups_subset (ws : GroupDict) (includeNames : Option (List String))
    (p : String × Group) (hp : p ∈ get_filtered_groups ws includeNames) : p ∈ ws := by
  unfold get_filtered_groups at hp
  by_cases h : optListTruthy includeNames = false
  · rwa [if_pos h] at hp
  · rw [if_neg h] at hp
    exact List.mem_of_mem_filter hp

/-- Every correspondence yielded by `MatchingNamesStrategy` comes from a
workspace group of the input list and an account group its display name
looks up to. -/
theorem matchingNamesGenerate_mem (pfx : String) (acct : GroupDict) (l : List Group)
    (mg : MigratedGroup) (hmg : mg ∈ matchingNamesGenerate pfx acct l) :
    ∃ g ∈ l, ∃ ag, dictGet acct g.display_name = some ag ∧ mg = mkMatchingNames pfx g ag := by
  induction l with
  | nil => simp [matchingNamesGenerate] at hmg
  | cons g rest ih =>
    rw [matchingNamesGenerate] at hmg
    cases hag : dictGet acct g.display_name with
    | none =>
      rw [hag] at hmg
      obtain ⟨g2, hg2, ag, hp⟩ := ih hmg
      exact ⟨g2, List.mem_cons_of_mem _ hg2, ag, hp⟩
    | some ag =>
      rw [hag] at hmg
      rcases List.mem_cons.mp hmg with h | h
      · exact ⟨g, List.mem_cons_self _ _, ag, hag, h⟩
      · obtain ⟨g2, hg2, ag2, hp⟩ := ih h
        exact ⟨g2, List.mem_cons_of_mem _ hg2, ag2, hp⟩

/- Claim theorems. -/

/-- C10: for every matching strategy, an empty (but present) include-filter
list behaves exactly like an absent filter — every workspace group is a
candidate — because `get_filtered_groups` tests the filter for truthiness
rather than for `None`. -/
theorem c10_empty_include_filter_is_absent (ws : GroupDict) :
    get_filtered_groups ws (some []) = get_filtered_groups ws none ∧
    get_filtered_groups ws none = ws := by
  constructor <;> simp [get_filtered_groups, optListTruthy]

/-- C9: regex evaluation is total over every engine outcome: the
substitution helper returns the original name unchanged on an invalid
expression (and the engine's result otherwise), and the match helper falls
back to the original name on an invalid or non-matching expression. -/
theorem c9_safe_regex_helpers_total (n r : String) :
    safeSub n SubOutcome.invalid = n ∧
    safeSub n (SubOutcome.subbed r) = r ∧
    safeMatch n MatchOutcome.invalid = some n ∧
    safeMatch n MatchOutcome.noMatch = some n :=
  ⟨rfl, rfl, rfl, rfl⟩

/-- C8: the Regex-match key derivation returns the first capture group
when the match has capture groups, else the whole matched text, else the
original name on an invalid or failed match; hence a name neither regex
matches derives a key equal to the original name. -/
theorem c8_regex_match_key_derivation (engine : String → MatchOutcome) (n whole : String)
    (c : Option String) (cs : List (Option String)) :
    safeMatch n (MatchOutcome.matched whole (c :: cs)) = c ∧
    safeMatch n (MatchOutcome.matched whole []) = some whole ∧
    safeMatch n MatchOutcome.noMatch = some n ∧
    safeMatch n MatchOutcome.invalid = some n ∧
    (engine n = MatchOutcome.noMatch → regexMatchKeyOf engine n = some n) ∧
    (engine n = MatchOutcome.invalid → regexMatchKeyOf engine n = some n) := by
  refine ⟨rfl, rfl, rfl, rfl, ?_, ?_⟩ <;>
    · intro h
      rw [regexMatchKeyOf, h]
      rfl

/-- C8 witness: a name on which the workspace regex matches nothing keeps
itself as its derived key. -/
theorem c8_regex_match_key_derivation_witness :
    regexMatchKeyOf (fun _ => MatchOutcome.noMatch) "data-eng" = some "data-eng" :=
  (c8_regex_match_key_derivation (fun _ => MatchOutcome.noMatch) "data-eng" "w" none []).2.2.2.2.1 rfl

/-- C1: `delete_original_workspace_groups` schedules a deletion for a
snapshot correspondence only if its `temporary_name` is present in the
workspace listing and its `name_in_account` is present among the account
groups visible in the workspace; a group whose account counterpart is not
yet visible under its final name is never deleted. -/
theorem c1_delete_only_when_reflected (snap : List MigratedGroup) (ws acct : List String)
    (t : String × String) (ht : t ∈ deleteTasks ws acct snap) :
    ∃ mg ∈ snap, t = (mg.id_in_workspace, mg.temporary_name) ∧
      mg.temporary_name ∈ ws ∧ mg.name_in_account ∈ acct := by
  induction snap with
  | nil => simp [deleteTasks] at ht
  | cons mg rest ih =>
    rw [deleteTasks] at ht
    by_cases h1 : mg.temporary_name ∉ ws
    · rw [if_pos h1] at ht
      obtain ⟨mg2, hmem, hp⟩ := ih ht
      exact ⟨mg2, List.mem_cons_of_mem _ hmem, hp⟩
    · rw [if_neg h1] at ht
      by_cases h2 : mg.name_in_account ∉ acct
      · rw [if_pos h2] at ht
        obtain ⟨mg2, hmem, hp⟩ := ih ht
        exact ⟨mg2, List.mem_cons_of_mem _ hmem, hp⟩
      · rw [if_neg h2] at ht
        rcases List.mem_cons.mp ht with h | h
        · exact ⟨mg, List.mem_cons_self _ _, h, not_not.mp h1, not_not.mp h2⟩
        · obtain ⟨mg2, hmem, hp⟩ := ih h
          exact ⟨mg2, List.mem_cons_of_mem _ hmem, hp⟩

/-- C1 witness: the one scheduled deletion on a singleton snapshot is for
a correspondence whose temporary name is listed in the workspace and whose
account name is reflected there. -/
theorem c1_delete_only_when_reflected_witness :
    ∃ mg ∈ [mgSample], ("g1", "tmp-x") = (mg.id_in_workspace, mg.temporary_name) ∧
      mg.temporary_name ∈ ["tmp-x"] ∧ mg.name_in_account ∈ ["x-acct"] :=
  c1_delete_only_when_reflected [mgSample] ["tmp-x"] ["x-acct"] ("g1", "tmp-x") (by decide)

/-- C7: the Exact-name strategy yields only correspondences whose
`name_in_workspace` equals `name_in_account` with that name present in
both (display-name-keyed) maps; on workspace groups `data-eng`, account
groups `data-eng` and the `ucx-renamed-` default, it yields exactly the
claimed single correspondence. -/
theorem c7_matching_names_strategy (pfx : String) (ws acct : GroupDict)
    (includeNames : Option (List String))
    (hkeys : ∀ p ∈ ws, (p.2).display_name = p.1) :
    (∀ mg ∈ matchingNamesGenerate pfx acct (dictValues (get_filtered_groups ws includeNames)),
        mg.name_in_workspace = mg.name_in_account ∧
        mg.name_in_workspace ∈ dictKeys ws ∧ mg.name_in_account ∈ dictKeys acct) ∧
    matchingNamesGenerate "ucx-renamed-" [("data-eng", acctDataEng)]
        (dictValues (get_filtered_groups [("data-eng", wsDataEng)] none)) =
      [⟨"g1", "data-eng", "data-eng", "ucx-renamed-data-eng", none, none, none, none⟩] := by
  constructor
  · intro mg hmg
    obtain ⟨g, hg, ag, hag, hmk⟩ := matchingNamesGenerate_mem _ _ _ _ hmg
    obtain ⟨p, hp, hpg⟩ := List.mem_map.mp hg
    have hpw : p ∈ ws := get_filtered_groups_subset _ _ _ hp
    refine ⟨by rw [hmk]; rfl, ?_, ?_⟩
    · have : g.display_name = p.1 := by rw [← hpg]; exact hkeys p hpw
      rw [hmk]
      show g.display_name ∈ dictKeys ws
      rw [this]
      exact List.mem_map_of_mem _ hpw
    · rw [hmk]
      show g.display_name ∈ dictKeys acct
      exact dictGet_isSome_mem_keys _ _ (by rw [hag]; rfl)
  · decide

/-- C7 witness: on the concrete scenario the yielded correspondence pairs
identical names present in both maps. -/
theorem c7_matching_names_strategy_witness :
    (⟨"g1", "data-eng", "data-eng", "ucx-renamed-data-eng", none, none, none, none⟩ :
        MigratedGroup).name_in_workspace ∈ dictKeys [("data-eng", wsDataEng)] :=
  (((c7_matching_names_strategy "ucx-renamed-" [("data-eng", wsDataEng)]
      [("data-eng", acctDataEng)] none (by decide)).1 _ (by decide)).2).1

/-- C3: when the Regex-substitute strategy derives a target name that is
not among the account groups, the direct account-dict indexing fails hard
(`KeyError`), aborting the generator instead of skipping with a log line;
the correspondences for the groups before the failing one are still
produced, and nothing after it is. -/
theorem c3_regex_sub_lookup_hard_error (pfx : String) (sub : String → String)
    (acct : GroupDict) (l1 l2 : List Group) (g : Group)
    (h1 : ∀ g2 ∈ l1, (dictGet acct (sub g2.display_name)).isSome = true)
    (h2 : dictGet acct (sub g.display_name) = none) :
    (regexSubGenerate pfx sub acct (l1 ++ g :: l2)).2 = some (sub g.display_name) ∧
    (regexSubGenerate pfx sub acct (l1 ++ g :: l2)).1 = (regexSubGenerate pfx sub acct l1).1 := by
  induction l1 with
  | nil => simp [regexSubGenerate, h2]
  | cons a rest ih =>
    have ha := h1 a (List.mem_cons_self _ _)
    obtain ⟨ag, hag⟩ := Option.isSome_iff_exists.mp ha
    have ih2 := ih (fun x hx => h1 x (List.mem_cons_of_mem _ hx))
    simp only [List.cons_append, regexSubGenerate, hag]
    exact ⟨ih2.1, congrArg (fun l => mkRegexSub pfx a (sub a.display_name) ag :: l) ih2.2⟩

/-- C3 witness: with the account dict holding only `corp-data-eng`, the
prefix-substitution on `ops` derives the absent `corp-ops`, aborting the
generator after the `data-eng` correspondence was produced. -/
theorem c3_regex_sub_lookup_hard_error_witness :
    (regexSubGenerate "db-temp-" (fun n => "corp-" ++ n) [("corp-data-eng", acctDataEng)]
        [wsDataEng, ⟨"g2", "ops", none, none, none, none⟩]).2 = some "corp-ops" ∧
    (regexSubGenerate "db-temp-" (fun n => "corp-" ++ n) [("corp-data-eng", acctDataEng)]
        [wsDataEng, ⟨"g2", "ops", none, none, none, none⟩]).1 =
      (regexSubGenerate "db-temp-" (fun n => "corp-" ++ n) [("corp-data-eng", acctDataEng)]
        [wsDataEng]).1 :=
  c3_regex_sub_lookup_hard_error "db-temp-" (fun n => "corp-" ++ n)
    [("corp-data-eng", acctDataEng)] [wsDataEng] [] ⟨"g2", "ops", none, none, none, none⟩
    (by decide) (by decide)

/-- Failure-list membership characterizes exactly the failing jobs. -/
theorem mem_gatherFailures (jobs : List (String × Except String Unit)) (gid cause : String) :
    (gid, cause) ∈ gatherFailures jobs ↔ (gid, Except.error cause) ∈ jobs := by
  unfold gatherFailures
  rw [List.mem_filterMap]
  constructor
  · rintro ⟨⟨j1, j2⟩, hj, hf⟩
    cases j2 with
    | ok u => simp at hf
    | error e =>
      simp only [Option.some.injEq, Prod.mk.injEq] at hf
      rw [← hf.1, ← hf.2]
      exact hj
  · intro hj
    exact ⟨(gid, Except.error cause), hj, rfl⟩

/-- C4: a phase raises exactly one aggregate error iff at least one
per-group job failed; the aggregate bundles the full failure list, whose
entries are exactly the failing jobs' group ids with their causes (never a
group whose job succeeded); with no failing job the phase returns
normally. (`Threads.gather` / `ManyError` are modelled from the spec,
their source lying outside this tree.) -/
theorem c4_phase_aggregate_error (jobs : List (String × Except String Unit)) :
    ((∃ errs, runPhase jobs = Except.error errs) ↔ ∃ j ∈ jobs, ∃ e, j.2 = Except.error e) ∧
    (∀ errs, runPhase jobs = Except.error errs →
      errs = gatherFailures jobs ∧
        ∀ gid cause, (gid, cause) ∈ errs ↔ (gid, Except.error cause) ∈ jobs) ∧
    ((∀ j ∈ jobs, j.2 = Except.ok ()) → runPhase jobs = Except.ok ()) := by
  refine ⟨⟨?_, ?_⟩, ?_, ?_⟩
  · rintro ⟨errs, herr⟩
    unfold runPhase at herr
    by_cases h : (gatherFailures jobs).length > 0
    · obtain ⟨⟨gid, cause⟩, hmem⟩ :=
        List.exists_mem_of_ne_nil _ (List.length_pos.mp h)
      have := (mem_gatherFailures jobs gid cause).mp hmem
      exact ⟨(gid, Except.error cause), this, cause, rfl⟩
    · rw [if_neg h] at herr
      cases herr
  · rintro ⟨⟨j1, j2⟩, hj, e, he⟩
    cases he
    have hmem : (j1, e) ∈ gatherFailures jobs := (mem_gatherFailures jobs j1 e).mpr hj
    have hpos : (gatherFailures jobs).length > 0 :=
      List.length_pos.mpr (List.ne_nil_of_mem hmem)
    exact ⟨gatherFailures jobs, by unfold runPhase; rw [if_pos hpos]⟩
  · intro errs herr
    unfold runPhase at herr
    by_cases h : (gatherFailures jobs).length > 0
    · rw [if_pos h] at herr
      cases herr
      exact ⟨rfl, fun gid cause => mem_gatherFailures jobs gid cause⟩
    · rw [if_neg h] at herr
      cases herr
  · intro hok
    have hnil : gatherFailures jobs = [] := by
      apply List.filterMap_eq_nil_iff.mpr
      intro j hj
      rw [hok j hj]
    unfold runPhase
    rw [hnil]
    rfl

/-- C4 witness: one failing and one succeeding job raise the aggregate
carrying exactly the failing group id with its cause. -/
theorem c4_phase_aggregate_error_witness :
    ("grp1", "boom") ∈ gatherFailures [("grp1", Except.error "boom"), ("grp2", Except.ok ())] ∧
    runPhase [("grp1", Except.error "boom"), ("grp2", Except.ok ())] =
      Except.error [("grp1", "boom")] := by
  have h := (c4_phase_aggregate_error [("grp1", Except.error "boom"), ("grp2", Except.ok ())]).2.1
    [("grp1", "boom")] rfl
  exact ⟨(h.2 "grp1" "boom").mpr (List.mem_cons_self _ _), rfl⟩

/-- C5 counterexample: the rename patch is a remote call used by a phase,
yet its decorator stack is empty — it is wrapped with neither a rate limit
nor a retry policy. -/
theorem c5_counterexample_rename_unwrapped :
    ("rename_group", renameGroupPolicies) ∈ phaseRemoteCalls ∧
    ¬ rateLimitThenRetryTransient renameGroupPolicies := by
  constructor
  · simp [phaseRemoteCalls]
  · rintro ⟨m, b, ks, h, -⟩
    simp [renameGroupPolicies] at h

/-- C5 amended: the delete and reflect calls are each wrapped with a rate
limit composed inside a retry policy whose allow-list is exactly
deadline-exceeded, internal error and conflict; the rename patch carries
no wrapper at all. -/
theorem c5_amended_delete_reflect_wrapped :
    rateLimitThenRetryTransient deleteWorkspaceGroupPolicies ∧
    rateLimitThenRetryTransient reflectAccountGroupPolicies ∧
    renameGroupPolicies = [] :=
  ⟨⟨35, some 60, transientKinds, rfl, fun _ => Iff.rfl⟩,
   ⟨10, none, transientKinds, rfl, fun _ => Iff.rfl⟩, rfl⟩

/-- C6 counterexample: a not-found error on the rename patch and on the
reflect call is not converted to a no-op — both surface it to the caller
(the rename body has no handler, the reflect body converts only
bad-request). -/
theorem c6_counterexample_not_found_surfaces :
    rename_group (Except.error ErrKind.notFound) = Except.error ErrKind.notFound ∧
    reflect_account_group_to_workspace (Except.error ErrKind.notFound) =
      Except.error ErrKind.notFound :=
  ⟨rfl, rfl⟩

/-- C6 amended: only the delete call converts a not-found error into a
successful no-op, which its surrounding retry wrapper then never retries;
the rename patch and the reflect call surface not-found as a failure,
while reflect converts bad-request (already exists) into success. -/
theorem c6_amended_not_found_handling :
    delete_workspace_group (Except.error ErrKind.notFound) = Except.ok () ∧
    (∀ rest : List (Except ErrKind Unit),
      retriedCall transientKinds (delete_workspace_group (Except.error ErrKind.notFound))
        (rest.map delete_workspace_group) = Except.ok ()) ∧
    rename_group (Except.error ErrKind.notFound) = Except.error ErrKind.notFound ∧
    reflect_account_group_to_workspace (Except.error ErrKind.notFound) =
      Except.error ErrKind.notFound ∧
    reflect_account_group_to_workspace (Except.error ErrKind.badRequest) = Except.ok true :=
  ⟨rfl, fun rest => retriedCall_ok transientKinds () (rest.map delete_workspace_group),
   rfl, rfl, rfl⟩

/-- The display name the group with id `gid` and current name `name` ends
up with after a batch of rename patches is applied in order. -/
def finalName (gid name : String) : List (String × String) → String
  | [] => name
  | t :: ts => finalName gid (if gid = t.1 then t.2 else name) ts

/-- Helper: rebuilding every group from its own fields is the identity. -/
theorem map_group_eta (gs : List Group) :
    gs.map (fun g =>
      (⟨g.id, g.display_name, g.external_id, g.members, g.roles, g.entitlements⟩ : Group)) = gs := by
  induction gs with
  | nil => rfl
  | cons a l ih => rw [List.map_cons, ih]

/-- Applying a batch of rename patches keeps every group's id and blobs
and rewrites its display name to `finalName`. -/
theorem applyRenames_eq_map (tasks : List (String × String)) (gs : List Group) :
    applyRenames gs tasks =
      gs.map (fun g =>
        ⟨g.id, finalName g.id g.display_name tasks,
         g.external_id, g.members, g.roles, g.entitlements⟩) := by
  induction tasks generalizing gs with
  | nil => rw [applyRenames]; exact (map_group_eta gs).symm
  | cons t ts ih =>
    rw [applyRenames, ih, applyPatch, List.map_map]
    apply List.map_congr_left
    intro g _
    by_cases h : g.id = t.1
    · simp [Function.comp, h, finalName]
    · simp [Function.comp, h, finalName]

/-- A group no task targets keeps its display name. -/
theorem finalName_no_match (gid name : String) (tasks : List (String × String))
    (h : ∀ t ∈ tasks, t.1 ≠ gid) : finalName gid name tasks = name := by
  induction tasks generalizing name with
  | nil => rfl
  | cons t ts ih =>
    rw [finalName, if_neg (fun hh => h t (List.mem_cons_self _ _) hh.symm)]
    exact ih name (fun t2 ht2 => h t2 (List.mem_cons_of_mem _ ht2))

/-- Once the running name equals the common target of every matching task,
it stays there. -/
theorem finalName_all_eq (gid nn : String) (tasks : List (String × String))
    (h : ∀ t ∈ tasks, t.1 = gid → t.2 = nn) : finalName gid nn tasks = nn := by
  induction tasks with
  | nil => rfl
  | cons t ts ih =>
    rw [finalName]
    by_cases hh : gid = t.1
    · rw [if_pos hh, h t (List.mem_cons_self _ _) hh.symm]
      exact ih (fun t2 ht2 => h t2 (List.mem_cons_of_mem _ ht2))
    · rw [if_neg hh]
      exact ih (fun t2 ht2 => h t2 (List.mem_cons_of_mem _ ht2))

/-- When every task matching `gid` carries the same new name and one such
task is present, the final name is that new name. -/
theorem finalName_unique_match (gid nn name : String) (tasks : List (String × String))
    (hmem : (gid, nn) ∈ tasks) (hall : ∀ t ∈ tasks, t.1 = gid → t.2 = nn) :
    finalName gid name tasks = nn := by
  induction tasks generalizing name with
  | nil => cases hmem
  | cons t ts ih =>
    rw [finalName]
    by_cases hh : gid = t.1
    · rw [if_pos hh, hall t (List.mem_cons_self _ _) hh.symm]
      exact finalName_all_eq gid nn ts (fun t2 ht2 => hall t2 (List.mem_cons_of_mem _ ht2))
    · rw [if_neg hh]
      rcases List.mem_cons.mp hmem with h | h
      · exact absurd (by rw [← h]) hh
      · exact ih name h (fun t2 ht2 => hall t2 (List.mem_cons_of_mem _ ht2))

/-- Every scheduled rename comes from a correspondence the live listings
did not skip. -/
theorem renameTasks_mem_src (acct ns : List String) (groups : List MigratedGroup)
    (t : String × String) (ht : t ∈ renameTasks acct ns groups) :
    ∃ mg ∈ groups, t = (mg.id_in_workspace, mg.temporary_name) ∧
      mg.name_in_account ∉ acct ∧ mg.temporary_name ∉ ns := by
  induction groups with
  | nil => simp [renameTasks] at ht
  | cons mg rest ih =>
    rw [renameTasks] at ht
    by_cases h1 : mg.name_in_account ∈ acct
    · rw [if_pos h1] at ht
      obtain ⟨mg2, hm, hp⟩ := ih ht
      exact ⟨mg2, List.mem_cons_of_mem _ hm, hp⟩
    · rw [if_neg h1] at ht
      by_cases h2 : mg.temporary_name ∈ ns
      · rw [if_pos h2] at ht
        obtain ⟨mg2, hm, hp⟩ := ih ht
        exact ⟨mg2, List.mem_cons_of_mem _ hm, hp⟩
      · rw [if_neg h2] at ht
        rcases List.mem_cons.mp ht with h | h
        · exact ⟨mg, List.mem_cons_self _ _, h, h1, h2⟩
        · obtain ⟨mg2, hm, hp⟩ := ih h
          exact ⟨mg2, List.mem_cons_of_mem _ hm, hp⟩

/-- Every non-skipped correspondence is scheduled. -/
theorem renameTasks_mem (acct ns : List String) (groups : List MigratedGroup)
    (mg : MigratedGroup) (hmg : mg ∈ groups)
    (h1 : mg.name_in_account ∉ acct) (h2 : mg.temporary_name ∉ ns) :
    (mg.id_in_workspace, mg.temporary_name) ∈ renameTasks acct ns groups := by
  induction groups with
  | nil => cases hmg
  | cons a rest ih =>
    rw [renameTasks]
    rcases List.mem_cons.mp hmg with h | h
    · subst h
      rw [if_neg h1, if_neg h2]
      exact List.mem_cons_self _ _
    · by_cases ha1 : a.name_in_account ∈ acct
      · rw [if_pos ha1]; exact ih h
      · rw [if_neg ha1]
        by_cases ha2 : a.temporary_name ∈ ns
        · rw [if_pos ha2]; exact ih h
        · rw [if_neg ha2]; exact List.mem_cons_of_mem _ (ih h)

/-- A batch with every correspondence skipped schedules nothing. -/
theorem renameTasks_eq_nil_of (acct ns : List String) (groups : List MigratedGroup)
    (h : ∀ mg ∈ groups, mg.name_in_account ∈ acct ∨ mg.temporary_name ∈ ns) :
    renameTasks acct ns groups = [] := by
  induction groups with
  | nil => rfl
  | cons mg rest ih =>
    rw [renameTasks]
    have ihr := ih (fun m hm => h m (List.mem_cons_of_mem _ hm))
    rcases h mg (List.mem_cons_self _ _) with h1 | h2
    · rw [if_pos h1]; exact ihr
    · by_cases h1 : mg.name_in_account ∈ acct
      · rw [if_pos h1]; exact ihr
      · rw [if_neg h1, if_pos h2]; exact ihr

/-- A listed group's post-batch display name is listed after the batch. -/
theorem mem_wsNames_applyRenames (gs : List Group) (tasks : List (String × String))
    (g : Group) (hg : g ∈ gs) :
    finalName g.id g.display_name tasks ∈ wsNames (applyRenames gs tasks) := by
  rw [applyRenames_eq_map]
  simp only [wsNames, List.map_map]
  exact List.mem_map_of_mem _ hg

/-- C2 counterexample: with snapshot correspondences `tmp-x → tmp-tmp-x`
and `x → tmp-x` over workspace groups named `tmp-x` and `x`, the first
invocation renames only the first group (the second is skipped because its
temporary name is still taken), and the second invocation — on exactly the
state the first one produced — schedules one further rename. -/
theorem c2_counterexample_second_run_renames :
    renameTasks []
      (wsNames (applyRenames
        [⟨"1", "tmp-x", none, none, none, none⟩, ⟨"2", "x", none, none, none, none⟩]
        (renameTasks []
          (wsNames [⟨"1", "tmp-x", none, none, none, none⟩, ⟨"2", "x", none, none, none, none⟩])
          [⟨"1", "tmp-x", "a", "tmp-tmp-x", none, none, none, none⟩,
           ⟨"2", "x", "b", "tmp-x", none, none, none, none⟩])))
      [⟨"1", "tmp-x", "a", "tmp-tmp-x", none, none, none, none⟩,
       ⟨"2", "x", "b", "tmp-x", none, none, none, none⟩] =
    [("2", "tmp-x")] := by decide

/-- C2 amended: provided snapshot ids are distinct, workspace group ids
are distinct, each correspondence's id resolves to a workspace group
listed under its `name_in_workspace`, and no correspondence's
`temporary_name` equals any correspondence's `name_in_workspace`, one run
renames each non-skipped group's display name to its temporary name and a
second invocation on the resulting state schedules zero rename calls. -/
theorem c2_amended_rename_idempotent (groups : List MigratedGroup) (acct : List String)
    (gs : List Group)
    (hgids : (groups.map (fun mg => mg.id_in_workspace)).Nodup)
    (hwids : (gs.map (fun g => g.id)).Nodup)
    (hcons : ∀ mg ∈ groups, ∃ g ∈ gs,
      g.id = mg.id_in_workspace ∧ g.display_name = mg.name_in_workspace)
    (hsep : ∀ mg ∈ groups, ∀ mg2 ∈ groups, mg.temporary_name ≠ mg2.name_in_workspace) :
    (∀ mg ∈ groups, mg.name_in_account ∉ acct → mg.temporary_name ∉ wsNames gs →
      ∃ g ∈ applyRenames gs (renameTasks acct (wsNames gs) groups),
        g.id = mg.id_in_workspace ∧ g.display_name = mg.temporary_name) ∧
    renameTasks acct (wsNames (applyRenames gs (renameTasks acct (wsNames gs) groups)))
      groups = [] := by
  have huniq : ∀ mg ∈ groups, ∀ t ∈ renameTasks acct (wsNames gs) groups,
      t.1 = mg.id_in_workspace → t.2 = mg.temporary_name := by
    intro mg hmg t ht h1
    obtain ⟨mg2, hmg2, hteq, -, -⟩ := renameTasks_mem_src _ _ _ t ht
    have hid : mg2.id_in_workspace = mg.id_in_workspace := by rw [hteq] at h1; exact h1
    have hmm : mg2 = mg := List.inj_on_of_nodup_map hgids hmg2 hmg hid
    rw [hteq, hmm]
  have hren : ∀ mg ∈ groups, mg.name_in_account ∉ acct → mg.temporary_name ∉ wsNames gs →
      ∃ g ∈ applyRenames gs (renameTasks acct (wsNames gs) groups),
        g.id = mg.id_in_workspace ∧ g.display_name = mg.temporary_name := by
    intro mg hmg h1 h2
    obtain ⟨g, hg, hgid, hgname⟩ := hcons mg hmg
    refine ⟨⟨g.id, finalName g.id g.display_name (renameTasks acct (wsNames gs) groups),
      g.external_id, g.members, g.roles, g.entitlements⟩, ?_, hgid, ?_⟩
    · rw [applyRenames_eq_map]
      exact List.mem_map_of_mem _ hg
    · show finalName g.id g.display_name _ = mg.temporary_name
      rw [hgid]
      exact finalName_unique_match mg.id_in_workspace mg.temporary_name g.display_name _
        (renameTasks_mem _ _ _ mg hmg h1 h2) (huniq mg hmg)
  refine ⟨hren, ?_⟩
  apply renameTasks_eq_nil_of
  intro mg hmg
  by_cases h1 : mg.name_in_account ∈ acct
  · exact Or.inl h1
  · right
    by_cases h2 : mg.temporary_name ∈ wsNames gs
    · simp only [wsNames] at h2
      obtain ⟨g, hg, hgname⟩ := List.mem_map.mp h2
      have hnom : ∀ t ∈ renameTasks acct (wsNames gs) groups, t.1 ≠ g.id := by
        intro t ht heq
        obtain ⟨mg2, hmg2, hteq, -, -⟩ := renameTasks_mem_src _ _ _ t ht
        obtain ⟨g2, hg2, hg2id, hg2name⟩ := hcons mg2 hmg2
        have hidg : g.id = g2.id := by rw [hg2id, ← heq, hteq]
        have hgg : g = g2 := List.inj_on_of_nodup_map hwids hg hg2 hidg
        apply hsep mg hmg mg2 hmg2
        rw [← hgname, hgg]
        exact hg2name
      have hmem := mem_wsNames_applyRenames gs (renameTasks acct (wsNames gs) groups) g hg
      rw [finalName_no_match _ _ _ hnom, hgname] at hmem
      exact hmem
    · obtain ⟨g, hgmem, hgid, hgname⟩ := hren mg hmg h1 h2
      rw [← hgname]
      simp only [wsNames]
      exact List.mem_map_of_mem _ hgmem

/-- C2 amended witness: a consistent singleton snapshot whose temporary
name is fresh — the second invocation schedules nothing. -/
theorem c2_amended_rename_idempotent_witness :
    renameTasks []
      (wsNames (applyRenames [⟨"1", "x", none, none, none, none⟩]
        (renameTasks [] (wsNames [⟨"1", "x", none, none, none, none⟩])
          [⟨"1", "x", "a", "tmp-x", none, none, none, none⟩])))
      [⟨"1", "x", "a", "tmp-x", none, none, none, none⟩] = [] :=
  (c2_amended_rename_idempotent
    [⟨"1", "x", "a", "tmp-x", none, none, none, none⟩] []
    [⟨"1", "x", none, none, none, none⟩]
    (by decide) (by decide) (by decide) (by decide)).2

end Ucx
